import Mathlib

/-!
Verification of the war-timeline reconstruction core of ClashKingAPI
(`src/routers/public/test.py`): `extract_attacks`,
`initialize_member_stats` and `compute_timeline`.

Modelling conventions:
* Python dicts holding raw JSON become structures whose possibly-missing
  keys are `Option` fields; reading a mandatory key is a fallible
  operation returning `Except PyError` (`KeyError` in Python).
* Python floats are modelled as exact rationals `ℚ`.
* Python's `sorted(..., key=...)` is a stable sort; any stable sort is
  extensionally equal to it, we use `List.insertionSort`.
* The float division `sum / (team_size * 100)` raises
  `ZeroDivisionError` when `team_size = 0`; the embedding guards the
  division and returns the corresponding error.
* `copy.deepcopy` of the accumulator dicts is value copying, which is
  automatic for Lean's immutable data.
-/

/-- Python runtime errors that the timeline code can raise. -/
inductive PyError where
  | keyError (key : String)
  | zeroDivisionError
  deriving DecidableEq, Repr

/-- Which roster an attack belongs to: the `"attackerClan"` tag,
either `"clan"` or `"opponent"`. -/
inductive Side where
  | clan
  | opponent
  deriving DecidableEq, Repr

/-- A raw attack record as found in the JSON input; every key may in
principle be missing, hence all fields are `Option`. -/
structure RawAttack where
  attackerTag : Option String
  defenderTag : Option String
  stars : Option Int
  destructionPercentage : Option ℚ
  order : Option Int
  duration : Option Int
  deriving DecidableEq, Repr

/-- A raw member record: a tag and an optional list of attacks
(`m.get("attacks", [])` treats a missing list as empty). -/
structure RawMember where
  tag : String
  attacks : Option (List RawAttack)
  deriving DecidableEq, Repr

/-- One side's roster: `{"tag": ..., "members": [...]}`. -/
structure Roster where
  tag : String
  members : List RawMember
  deriving DecidableEq, Repr

/-- The war snapshot consumed by `compute_timeline`. -/
structure WarData where
  clan : Roster
  opponent : Roster
  teamSize : Int
  attacksPerMember : Option Int
  deriving DecidableEq, Repr

/-- An extracted attack, the dict appended to `all_attacks` in
`extract_attacks`; all mandatory fields are present, `duration`
defaulted to 0 when absent. -/
structure Attack where
  attackerClan : Side
  attackerTag : String
  defenderTag : String
  stars : Int
  destructionPercentage : ℚ
  order : Int
  duration : Int
  deriving DecidableEq, Repr

/-- A per-member accumulator dict produced by `initialize_member_stats`. -/
structure MemberStat where
  tag : String
  attacks_used : Nat
  defenses_used : Nat
  deriving DecidableEq, Repr

/-- One entry of the returned `war_timeline` list. -/
structure Snapshot where
  order : Int
  clan_stars : Int
  clan_destruction : ℚ
  clan_attacks_used : Nat
  opponent_stars : Int
  opponent_destruction : ℚ
  opponent_attacks_used : Nat
  clan_members : List MemberStat
  opponent_members : List MemberStat
  last_attack : Option Attack
  deriving DecidableEq, Repr

/-- `m.get("attacks", [])`. -/
def memberRawAttacks (m : RawMember) : List RawAttack :=
  m.attacks.getD []

/-- Reading the mandatory key `k` from an optional field: `a[k]`
raises `KeyError(k)` when absent. -/
def getKey {α : Type} (k : String) : Option α → Except PyError α
  | some v => .ok v
  | none => .error (.keyError k)

/-- Building the dict appended to `all_attacks` for one raw attack of
side `side`: every mandatory key is read (KeyError when missing) and
`duration` is defaulted with `a.get("duration", 0)`. -/
def extractRawAttack (side : Side) (a : RawAttack) : Except PyError Attack :=
  match a.attackerTag with
  | none => .error (.keyError "attackerTag")
  | some atk =>
    match a.defenderTag with
    | none => .error (.keyError "defenderTag")
    | some dfn =>
      match a.stars with
      | none => .error (.keyError "stars")
      | some st =>
        match a.destructionPercentage with
        | none => .error (.keyError "destructionPercentage")
        | some dp =>
          match a.order with
          | none => .error (.keyError "order")
          | some ord =>
            .ok { attackerClan := side, attackerTag := atk, defenderTag := dfn,
                  stars := st, destructionPercentage := dp, order := ord,
                  duration := a.duration.getD 0 }

/-- The nested `for m in members: for a in m.get("attacks", []):` loop of
one side, translating each raw attack in order; the first `KeyError`
aborts the whole extraction. -/
def extractList (side : Side) : List RawAttack → Except PyError (List Attack)
  | [] => .ok []
  | ra :: rest =>
    match extractRawAttack side ra with
    | .error e => .error e
    | .ok a =>
      match extractList side rest with
      | .error e => .error e
      | .ok l => .ok (a :: l)

/-- All raw attack records of a roster, in loop order. -/
def rosterRawAttacks (r : Roster) : List RawAttack :=
  (r.members.map memberRawAttacks).flatten

/-- All raw attack records of the war in the order `extract_attacks`
visits them: every clan attack, then every opponent attack. -/
def allRawAttacks (war : WarData) : List RawAttack :=
  rosterRawAttacks war.clan ++ rosterRawAttacks war.opponent

/-- `sorted(all_attacks, key=lambda x: x["order"])`: Python's sort is
stable, and stable sorting by a key is unique, so the stable
`insertionSort` is extensionally the same function. -/
def sortByOrder (l : List Attack) : List Attack :=
  List.insertionSort (fun a b => a.order ≤ b.order) l

/-- `extract_attacks`: flatten both rosters' attacks (clan first),
tagging each with its side, then sort the combined list by `order`. -/
def extract_attacks (war : WarData) : Except PyError (List Attack) :=
  match extractList .clan (rosterRawAttacks war.clan) with
  | .error e => .error e
  | .ok ca =>
    match extractList .opponent (rosterRawAttacks war.opponent) with
    | .error e => .error e
    | .ok oa => .ok (sortByOrder (ca ++ oa))

/-- The zero `MemberStat` for a tag. -/
def zeroStat (tag : String) : MemberStat :=
  { tag := tag, attacks_used := 0, defenses_used := 0 }

/-- Python dict assignment `d[v.tag] = v` on the insertion-ordered value
list: replace in place when the key exists, append otherwise. -/
def dictInsert (v : MemberStat) : List MemberStat → List MemberStat
  | [] => [v]
  | x :: xs => if x.tag = v.tag then v :: xs else x :: dictInsert v xs

/-- `initialize_member_stats`: one zero accumulator per member tag, in
insertion order (the value list of the Python dict). -/
def initialize_member_stats (members : List RawMember) : List MemberStat :=
  members.foldl (fun acc m => dictInsert (zeroStat m.tag) acc) []

/-- `if tag in stats: stats[tag]["attacks_used"] += 1`. -/
def incAttacksUsed (tag : String) : List MemberStat → List MemberStat
  | [] => []
  | x :: xs =>
    if x.tag = tag then
      { x with attacks_used := x.attacks_used + 1 } :: xs
    else
      x :: incAttacksUsed tag xs

/-- `if tag in stats: stats[tag]["defenses_used"] += 1`. -/
def incDefensesUsed (tag : String) : List MemberStat → List MemberStat
  | [] => []
  | x :: xs =>
    if x.tag = tag then
      { x with defenses_used := x.defenses_used + 1 } :: xs
    else
      x :: incDefensesUsed tag xs

/-- The mutable state of the fold in `compute_timeline`: the running
per-side totals and both accumulator dicts. -/
structure FoldSt where
  clan_stars : Int
  sum_clan_destruction : ℚ
  clan_attacks_used : Nat
  opponent_stars : Int
  sum_opponent_destruction : ℚ
  opponent_attacks_used : Nat
  clan_members_stats : List MemberStat
  opponent_members_stats : List MemberStat
  deriving DecidableEq, Repr

/-- One iteration of the `for attack in all_attacks` loop, up to (and
excluding) the division: update the attacking side's totals and both
member dicts. -/
def applyAttack (st : FoldSt) (a : Attack) : FoldSt :=
  match a.attackerClan with
  | .clan =>
    { st with
      clan_stars := st.clan_stars + a.stars
      sum_clan_destruction := st.sum_clan_destruction + a.destructionPercentage
      clan_attacks_used := st.clan_attacks_used + 1
      clan_members_stats := incAttacksUsed a.attackerTag st.clan_members_stats
      opponent_members_stats := incDefensesUsed a.defenderTag st.opponent_members_stats }
  | .opponent =>
    { st with
      opponent_stars := st.opponent_stars + a.stars
      sum_opponent_destruction := st.sum_opponent_destruction + a.destructionPercentage
      opponent_attacks_used := st.opponent_attacks_used + 1
      opponent_members_stats := incAttacksUsed a.attackerTag st.opponent_members_stats
      clan_members_stats := incDefensesUsed a.defenderTag st.clan_members_stats }

/-- The snapshot appended after folding attack `a` into state `st`:
the normalized destruction is `(sum / (team_size * 100)) * 100`. -/
def mkSnapshot (ts : Int) (a : Attack) (st : FoldSt) : Snapshot :=
  { order := a.order
    clan_stars := st.clan_stars
    clan_destruction := st.sum_clan_destruction / ((ts * 100 : Int) : ℚ) * 100
    clan_attacks_used := st.clan_attacks_used
    opponent_stars := st.opponent_stars
    opponent_destruction := st.sum_opponent_destruction / ((ts * 100 : Int) : ℚ) * 100
    opponent_attacks_used := st.opponent_attacks_used
    clan_members := st.clan_members_stats
    opponent_members := st.opponent_members_stats
    last_attack := some a }

/-- The attack loop of `compute_timeline`: fold each attack into the
state, then recompute the two normalized destruction percentages —
a float division that raises `ZeroDivisionError` when
`team_size * 100 = 0` — and append a snapshot. -/
def foldAttacks (ts : Int) (st : FoldSt) : List Attack → Except PyError (List Snapshot)
  | [] => .ok []
  | a :: rest =>
    let st' := applyAttack st a
    if ts * 100 = 0 then .error .zeroDivisionError
    else
      match foldAttacks ts st' rest with
      | .error e => .error e
      | .ok snaps => .ok (mkSnapshot ts a st' :: snaps)

/-- The initial fold state: all totals zero, zero accumulators for
every member of both rosters. -/
def initState (war : WarData) : FoldSt :=
  { clan_stars := 0
    sum_clan_destruction := 0
    clan_attacks_used := 0
    opponent_stars := 0
    sum_opponent_destruction := 0
    opponent_attacks_used := 0
    clan_members_stats := initialize_member_stats war.clan.members
    opponent_members_stats := initialize_member_stats war.opponent.members }

/-- The first element of `war_timeline`: order 0, all totals zero,
copies of the all-zero accumulators, `last_attack = None`. -/
def initialSnapshot (war : WarData) : Snapshot :=
  { order := 0
    clan_stars := 0
    clan_destruction := 0
    clan_attacks_used := 0
    opponent_stars := 0
    opponent_destruction := 0
    opponent_attacks_used := 0
    clan_members := initialize_member_stats war.clan.members
    opponent_members := initialize_member_stats war.opponent.members
    last_attack := none }

/-- `compute_timeline`: extract and sort the attacks, then emit the
initial snapshot followed by one snapshot per attack. -/
def compute_timeline (war : WarData) : Except PyError (List Snapshot) :=
  match extract_attacks war with
  | .error e => .error e
  | .ok all_attacks =>
    match foldAttacks war.teamSize (initState war) all_attacks with
    | .error e => .error e
    | .ok rest => .ok (initialSnapshot war :: rest)

/-! ## Spec-level characterizations of the fold -/

/-- The snapshot list the fold produces when no division error occurs:
one snapshot per attack, each built from the state folded so far. -/
def snapList (ts : Int) (st : FoldSt) : List Attack → List Snapshot
  | [] => []
  | a :: rest => mkSnapshot ts a (applyAttack st a) :: snapList ts (applyAttack st a) rest

/-- The fold state after applying a list of attacks to `st`. -/
def stateAfter (st : FoldSt) (l : List Attack) : FoldSt :=
  l.foldl applyAttack st

/-- The timeline `compute_timeline` returns for the already-extracted
attack list `l`. -/
def timelineOfAttacks (war : WarData) (l : List Attack) : List Snapshot :=
  initialSnapshot war :: snapList war.teamSize (initState war) l

theorem stateAfter_nil (st : FoldSt) : stateAfter st [] = st := rfl

theorem stateAfter_cons (st : FoldSt) (a : Attack) (l : List Attack) :
    stateAfter st (a :: l) = stateAfter (applyAttack st a) l := rfl

theorem stateAfter_append (st : FoldSt) (l1 l2 : List Attack) :
    stateAfter st (l1 ++ l2) = stateAfter (stateAfter st l1) l2 := by
  simp [stateAfter, List.foldl_append]

theorem snapList_length (ts : Int) : ∀ (l : List Attack) (st : FoldSt),
    (snapList ts st l).length = l.length
  | [], _ => rfl
  | _ :: rest, st => by
    simp [snapList, snapList_length ts rest]

theorem snapList_append (ts : Int) : ∀ (l1 l2 : List Attack) (st : FoldSt),
    snapList ts st (l1 ++ l2) = snapList ts st l1 ++ snapList ts (stateAfter st l1) l2
  | [], l2, st => by simp [snapList, stateAfter_nil]
  | a :: rest, l2, st => by
    simp [snapList, snapList_append ts rest l2 (applyAttack st a), stateAfter_cons]

theorem snapList_take (ts : Int) (st : FoldSt) (l : List Attack) (n : Nat)
    (h : n ≤ l.length) :
    snapList ts st (l.take n) = (snapList ts st l).take n := by
  conv_rhs => rw [← List.take_append_drop n l]
  rw [snapList_append, List.take_append_eq_append_take]
  have hlen : (snapList ts st (l.take n)).length = n := by
    rw [snapList_length, List.length_take]
    omega
  rw [List.take_of_length_le (le_of_eq hlen), hlen]
  simp

theorem snapList_get (ts : Int) : ∀ (l : List Attack) (st : FoldSt) (i : Nat)
    (h : i < l.length),
    (snapList ts st l).get ⟨i, by rw [snapList_length]; exact h⟩ =
      mkSnapshot ts (l.get ⟨i, h⟩) (stateAfter st (l.take (i + 1)))
  | [], _, i, h => absurd h (Nat.not_lt_zero i)
  | a :: rest, st, 0, h => by
    simp [snapList, stateAfter_cons, stateAfter_nil]
  | a :: rest, st, i + 1, h => by
    have := snapList_get ts rest (applyAttack st a) i (Nat.lt_of_succ_lt_succ h)
    simpa [snapList, stateAfter_cons] using this

theorem foldAttacks_of_ne (ts : Int) (hts : ts * 100 ≠ 0) :
    ∀ (l : List Attack) (st : FoldSt), foldAttacks ts st l = .ok (snapList ts st l)
  | [], _ => rfl
  | a :: rest, st => by
    simp only [foldAttacks, if_neg hts, foldAttacks_of_ne ts hts rest (applyAttack st a),
      snapList]

theorem foldAttacks_ok (ts : Int) :
    ∀ {l : List Attack} {st : FoldSt} {s : List Snapshot},
      foldAttacks ts st l = .ok s → s = snapList ts st l := by
  intro l
  induction l with
  | nil =>
    intro st s h
    simp only [foldAttacks, Except.ok.injEq] at h
    simp [← h, snapList]
  | cons a rest ih =>
    intro st s h
    simp only [foldAttacks] at h
    split at h
    · exact absurd h (by simp)
    · cases h' : foldAttacks ts (applyAttack st a) rest with
      | error e => rw [h'] at h; exact absurd h (by simp)
      | ok snaps =>
        rw [h'] at h
        simp only [Except.ok.injEq] at h
        rw [← h, snapList, ih h']

theorem foldAttacks_zero_cons (ts : Int) (hts : ts * 100 = 0) (st : FoldSt)
    (a : Attack) (rest : List Attack) :
    foldAttacks ts st (a :: rest) = .error .zeroDivisionError := by
  simp [foldAttacks, hts]

/-! ## Extraction lemmas -/

/-- A raw attack record carries all five mandatory keys. -/
def rawComplete (ra : RawAttack) : Prop :=
  ra.attackerTag.isSome ∧ ra.defenderTag.isSome ∧ ra.stars.isSome ∧
    ra.destructionPercentage.isSome ∧ ra.order.isSome

instance (ra : RawAttack) : Decidable (rawComplete ra) := by
  unfold rawComplete
  infer_instance

theorem extractRawAttack_ok_iff (side : Side) (ra : RawAttack) :
    (∃ a, extractRawAttack side ra = .ok a) ↔ rawComplete ra := by
  rcases ra with ⟨atk, dfn, st, dp, ord, dur⟩
  cases atk <;> cases dfn <;> cases st <;> cases dp <;> cases ord <;>
    simp [extractRawAttack, rawComplete]

theorem extractRawAttack_fields (side : Side) (ra : RawAttack) (a : Attack)
    (h : extractRawAttack side ra = .ok a) :
    ra.attackerTag = some a.attackerTag ∧ ra.defenderTag = some a.defenderTag ∧
      ra.stars = some a.stars ∧
      ra.destructionPercentage = some a.destructionPercentage ∧
      ra.order = some a.order ∧ a.duration = ra.duration.getD 0 ∧
      a.attackerClan = side := by
  rcases ra with ⟨atk, dfn, st, dp, ord, dur⟩
  cases atk <;> cases dfn <;> cases st <;> cases dp <;> cases ord <;>
    simp only [extractRawAttack] at h
  all_goals first
    | (rw [Except.ok.injEq] at h; subst h; simp)
    | exact absurd h (by simp)

theorem extractList_ok_iff (side : Side) :
    ∀ ras : List RawAttack,
      (∃ l, extractList side ras = .ok l) ↔ ∀ ra ∈ ras, rawComplete ra := by
  intro ras
  induction ras with
  | nil => simp [extractList]
  | cons ra rest ih =>
    constructor
    · rintro ⟨l, h⟩
      simp only [extractList] at h
      cases h1 : extractRawAttack side ra with
      | error e => rw [h1] at h; exact absurd h (by simp)
      | ok a =>
        rw [h1] at h
        cases h2 : extractList side rest with
        | error e => rw [h2] at h; exact absurd h (by simp)
        | ok l2 =>
          intro ra' hra'
          rcases List.mem_cons.mp hra' with heq | hmem
          · subst heq
            exact (extractRawAttack_ok_iff side ra').mp ⟨a, h1⟩
          · exact (ih.mp ⟨l2, h2⟩) ra' hmem
    · intro hall
      obtain ⟨a, h1⟩ := (extractRawAttack_ok_iff side ra).mpr (hall ra (by simp))
      obtain ⟨l2, h2⟩ := ih.mpr (fun ra' h => hall ra' (by simp [h]))
      exact ⟨a :: l2, by simp [extractList, h1, h2]⟩

theorem extractList_length (side : Side) :
    ∀ (ras : List RawAttack) (l : List Attack),
      extractList side ras = .ok l → l.length = ras.length := by
  intro ras
  induction ras with
  | nil =>
    intro l h
    simp only [extractList, Except.ok.injEq] at h
    simp [← h]
  | cons ra rest ih =>
    intro l h
    simp only [extractList] at h
    cases h1 : extractRawAttack side ra with
    | error e => rw [h1] at h; exact absurd h (by simp)
    | ok a =>
      rw [h1] at h
      cases h2 : extractList side rest with
      | error e => rw [h2] at h; exact absurd h (by simp)
      | ok l2 =>
        rw [h2] at h
        simp only [Except.ok.injEq] at h
        simp [← h, ih l2 h2]

theorem extractList_mem (side : Side) :
    ∀ (ras : List RawAttack) (l : List Attack),
      extractList side ras = .ok l →
        ∀ a ∈ l, ∃ ra ∈ ras, extractRawAttack side ra = .ok a := by
  intro ras
  induction ras with
  | nil =>
    intro l h
    simp only [extractList, Except.ok.injEq] at h
    simp [← h]
  | cons ra rest ih =>
    intro l h
    simp only [extractList] at h
    cases h1 : extractRawAttack side ra with
    | error e => rw [h1] at h; exact absurd h (by simp)
    | ok a =>
      rw [h1] at h
      cases h2 : extractList side rest with
      | error e => rw [h2] at h; exact absurd h (by simp)
      | ok l2 =>
        rw [h2] at h
        simp only [Except.ok.injEq] at h
        intro x hx
        rw [← h] at hx
        rcases List.mem_cons.mp hx with heq | hmem
        · exact ⟨ra, by simp, heq ▸ h1⟩
        · obtain ⟨ra', hra', hok⟩ := ih l2 h2 x hmem
          exact ⟨ra', by simp [hra'], hok⟩

theorem extract_attacks_elim (war : WarData) (l : List Attack)
    (h : extract_attacks war = .ok l) :
    ∃ ca oa, extractList .clan (rosterRawAttacks war.clan) = .ok ca ∧
      extractList .opponent (rosterRawAttacks war.opponent) = .ok oa ∧
      l = sortByOrder (ca ++ oa) := by
  simp only [extract_attacks] at h
  cases h1 : extractList .clan (rosterRawAttacks war.clan) with
  | error e => rw [h1] at h; exact absurd h (by simp)
  | ok ca =>
    rw [h1] at h
    cases h2 : extractList .opponent (rosterRawAttacks war.opponent) with
    | error e => rw [h2] at h; exact absurd h (by simp)
    | ok oa =>
      rw [h2] at h
      simp only [Except.ok.injEq] at h
      exact ⟨ca, oa, rfl, rfl, h.symm⟩

theorem extract_attacks_ok_iff (war : WarData) :
    (∃ l, extract_attacks war = .ok l) ↔ ∀ ra ∈ allRawAttacks war, rawComplete ra := by
  constructor
  · rintro ⟨l, h⟩
    obtain ⟨ca, oa, h1, h2, _⟩ := extract_attacks_elim war l h
    intro ra hra
    rcases List.mem_append.mp hra with hc | ho
    · exact ((extractList_ok_iff .clan _).mp ⟨ca, h1⟩) ra hc
    · exact ((extractList_ok_iff .opponent _).mp ⟨oa, h2⟩) ra ho
  · intro hall
    obtain ⟨ca, h1⟩ := (extractList_ok_iff .clan (rosterRawAttacks war.clan)).mpr
      (fun ra h => hall ra (List.mem_append.mpr (Or.inl h)))
    obtain ⟨oa, h2⟩ := (extractList_ok_iff .opponent (rosterRawAttacks war.opponent)).mpr
      (fun ra h => hall ra (List.mem_append.mpr (Or.inr h)))
    exact ⟨sortByOrder (ca ++ oa), by simp [extract_attacks, h1, h2]⟩

/-! ## Sorting lemmas -/

instance : IsTotal Attack (fun a b => a.order ≤ b.order) :=
  ⟨fun a b => Int.le_total a.order b.order⟩

instance : IsTrans Attack (fun a b => a.order ≤ b.order) :=
  ⟨fun _ _ _ hab hbc => le_trans hab hbc⟩

theorem sortByOrder_perm (l : List Attack) : (sortByOrder l).Perm l :=
  List.perm_insertionSort _ l

theorem sortByOrder_sorted (l : List Attack) :
    (sortByOrder l).Pairwise (fun a b => a.order ≤ b.order) :=
  List.sorted_insertionSort _ l

/-- The Boolean test `x["order"] == v`. -/
def hasOrder (v : Int) (a : Attack) : Bool :=
  a.order == v

theorem filter_orderedInsert_pos (v : Int) (a : Attack) (h : a.order = v) :
    ∀ l : List Attack,
      (List.orderedInsert (fun x y => x.order ≤ y.order) a l).filter (hasOrder v) =
        a :: l.filter (hasOrder v)
  | [] => by subst h; simp [hasOrder]
  | b :: bs => by
    subst h
    by_cases hr : a.order ≤ b.order
    · simp [List.orderedInsert, hr, List.filter_cons, hasOrder]
    · have hb : (b.order == a.order) = false := by
        have hr' : b.order < a.order := Int.not_le.mp hr
        simp only [beq_eq_false_iff_ne, ne_eq]
        omega
      have hrec := filter_orderedInsert_pos a.order a rfl bs
      simp [List.orderedInsert, hr, List.filter_cons, hasOrder, hb, hrec]

theorem filter_orderedInsert_neg (v : Int) (a : Attack) (h : ¬a.order = v) :
    ∀ l : List Attack,
      (List.orderedInsert (fun x y => x.order ≤ y.order) a l).filter (hasOrder v) =
        l.filter (hasOrder v)
  | [] => by simp [hasOrder, h]
  | b :: bs => by
    by_cases hr : a.order ≤ b.order
    · simp [List.orderedInsert, hr, List.filter_cons, hasOrder, h]
    · have hrec := filter_orderedInsert_neg v a h bs
      simp [List.orderedInsert, hr, List.filter_cons, hasOrder, hrec]

theorem sortByOrder_filter (v : Int) :
    ∀ l : List Attack, (sortByOrder l).filter (hasOrder v) = l.filter (hasOrder v)
  | [] => rfl
  | a :: rest => by
    have hrec := sortByOrder_filter v rest
    simp only [sortByOrder, List.insertionSort] at hrec ⊢
    by_cases h : a.order = v
    · rw [filter_orderedInsert_pos v a h, hrec]
      simp [List.filter_cons, hasOrder, h]
    · rw [filter_orderedInsert_neg v a h, hrec]
      simp [List.filter_cons, hasOrder, h]

/-! ## `compute_timeline` characterization -/

theorem compute_timeline_elim (war : WarData) (tl : List Snapshot)
    (h : compute_timeline war = .ok tl) :
    ∃ l, extract_attacks war = .ok l ∧ tl = timelineOfAttacks war l := by
  cases h1 : extract_attacks war with
  | error e => simp [compute_timeline, h1] at h
  | ok l =>
    cases h2 : foldAttacks war.teamSize (initState war) l with
    | error e => simp [compute_timeline, h1, h2] at h
    | ok rest =>
      simp only [compute_timeline, h1, h2, Except.ok.injEq] at h
      refine ⟨l, rfl, ?_⟩
      rw [← h, timelineOfAttacks, foldAttacks_ok war.teamSize h2]

theorem compute_timeline_of_extract (war : WarData) (l : List Attack)
    (he : extract_attacks war = .ok l) (hts : war.teamSize * 100 ≠ 0) :
    compute_timeline war = .ok (timelineOfAttacks war l) := by
  simp [compute_timeline, he, foldAttacks_of_ne war.teamSize hts, timelineOfAttacks]

theorem compute_timeline_ok_unique (war : WarData) (l : List Attack)
    (tl : List Snapshot) (he : extract_attacks war = .ok l)
    (hc : compute_timeline war = .ok tl) : tl = timelineOfAttacks war l := by
  obtain ⟨l2, he2, htl⟩ := compute_timeline_elim war tl hc
  rw [he] at he2
  cases he2
  exact htl

theorem compute_timeline_error_extract (war : WarData) (e : PyError)
    (h : extract_attacks war = .error e) : compute_timeline war = .error e := by
  simp [compute_timeline, h]

/-! ## Per-side sums over attack lists -/

/-- Total stars scored by `side` in the attack list. -/
def sumStars (side : Side) : List Attack → Int
  | [] => 0
  | a :: rest => (if a.attackerClan = side then a.stars else 0) + sumStars side rest

/-- Cumulative raw destruction-percentage sum for `side`. -/
def sumDest (side : Side) : List Attack → ℚ
  | [] => 0
  | a :: rest =>
    (if a.attackerClan = side then a.destructionPercentage else 0) + sumDest side rest

/-- Number of attacks made by `side`. -/
def countSide (side : Side) : List Attack → Nat
  | [] => 0
  | a :: rest => (if a.attackerClan = side then 1 else 0) + countSide side rest

theorem stateAfter_totals (st : FoldSt) : ∀ l : List Attack,
    (stateAfter st l).clan_stars = st.clan_stars + sumStars .clan l ∧
      (stateAfter st l).sum_clan_destruction = st.sum_clan_destruction + sumDest .clan l ∧
      (stateAfter st l).clan_attacks_used = st.clan_attacks_used + countSide .clan l ∧
      (stateAfter st l).opponent_stars = st.opponent_stars + sumStars .opponent l ∧
      (stateAfter st l).sum_opponent_destruction =
        st.sum_opponent_destruction + sumDest .opponent l ∧
      (stateAfter st l).opponent_attacks_used =
        st.opponent_attacks_used + countSide .opponent l
  | [] => by simp [stateAfter_nil, sumStars, sumDest, countSide]
  | a :: rest => by
    obtain ⟨h1, h2, h3, h4, h5, h6⟩ := stateAfter_totals (applyAttack st a) rest
    rw [stateAfter_cons]
    cases hcl : a.attackerClan <;>
      refine ⟨?_, ?_, ?_, ?_, ?_, ?_⟩ <;>
      simp only [h1, h2, h3, h4, h5, h6] <;>
      simp [applyAttack, hcl, sumStars, sumDest, countSide] <;>
      ring

/-- Componentwise order on the running totals of two fold states. -/
def stLE (s t : FoldSt) : Prop :=
  s.clan_stars ≤ t.clan_stars ∧ s.sum_clan_destruction ≤ t.sum_clan_destruction ∧
    s.clan_attacks_used ≤ t.clan_attacks_used ∧ s.opponent_stars ≤ t.opponent_stars ∧
    s.sum_opponent_destruction ≤ t.sum_opponent_destruction ∧
    s.opponent_attacks_used ≤ t.opponent_attacks_used

theorem applyAttack_stLE (st : FoldSt) (a : Attack) (hs : 0 ≤ a.stars)
    (hd : 0 ≤ a.destructionPercentage) : stLE st (applyAttack st a) := by
  unfold stLE
  cases hcl : a.attackerClan <;>
    refine ⟨?_, ?_, ?_, ?_, ?_, ?_⟩ <;>
    simp [applyAttack, hcl] <;>
    first | omega | linarith

/-! ## Member-stat dictionary lemmas -/

theorem incAttacksUsed_not_mem (tag : String) :
    ∀ l : List MemberStat, tag ∉ l.map MemberStat.tag → incAttacksUsed tag l = l
  | [], _ => rfl
  | x :: xs, h => by
    simp only [List.map_cons, List.mem_cons, not_or] at h
    simp [incAttacksUsed, Ne.symm h.1, incAttacksUsed_not_mem tag xs h.2]

theorem incDefensesUsed_not_mem (tag : String) :
    ∀ l : List MemberStat, tag ∉ l.map MemberStat.tag → incDefensesUsed tag l = l
  | [], _ => rfl
  | x :: xs, h => by
    simp only [List.map_cons, List.mem_cons, not_or] at h
    simp [incDefensesUsed, Ne.symm h.1, incDefensesUsed_not_mem tag xs h.2]

theorem dictInsert_not_mem (v : MemberStat) :
    ∀ l : List MemberStat, v.tag ∉ l.map MemberStat.tag → dictInsert v l = l ++ [v]
  | [], _ => rfl
  | x :: xs, h => by
    simp only [List.map_cons, List.mem_cons, not_or] at h
    simp [dictInsert, Ne.symm h.1, dictInsert_not_mem v xs h.2]

theorem initialize_go :
    ∀ (members : List RawMember) (acc : List MemberStat),
      (members.map RawMember.tag).Nodup →
      (∀ m ∈ members, m.tag ∉ acc.map MemberStat.tag) →
      List.foldl (fun acc m => dictInsert (zeroStat m.tag) acc) acc members =
        acc ++ members.map (fun m => zeroStat m.tag)
  | [], acc, _, _ => by simp
  | m :: rest, acc, hnd, hacc => by
    have hnd' : (m.tag :: rest.map RawMember.tag).Nodup := by simpa using hnd
    have h1 : m.tag ∉ rest.map RawMember.tag := (List.nodup_cons.mp hnd').1
    have h2 : (rest.map RawMember.tag).Nodup := (List.nodup_cons.mp hnd').2
    have hins : dictInsert (zeroStat m.tag) acc = acc ++ [zeroStat m.tag] :=
      dictInsert_not_mem (zeroStat m.tag) acc (hacc m (by simp))
    have hacc2 : ∀ m' ∈ rest, m'.tag ∉ (acc ++ [zeroStat m.tag]).map MemberStat.tag := by
      intro m' hm'
      simp only [List.map_append, List.mem_append, not_or, List.map_cons, List.map_nil,
        List.mem_singleton]
      refine ⟨hacc m' (by simp [hm']), ?_⟩
      intro heq
      have : m'.tag ∈ rest.map RawMember.tag := List.mem_map_of_mem RawMember.tag hm'
      rw [show (zeroStat m.tag).tag = m.tag from rfl] at heq
      exact h1 (heq ▸ this)
    simp only [List.foldl_cons, hins]
    rw [initialize_go rest (acc ++ [zeroStat m.tag]) h2 hacc2]
    simp

theorem initialize_eq_map (members : List RawMember)
    (h : (members.map RawMember.tag).Nodup) :
    initialize_member_stats members = members.map (fun m => zeroStat m.tag) := by
  have := initialize_go members [] h (by simp)
  simpa [initialize_member_stats] using this

/-! ## Claim theorems -/

/-- C1: for every war snapshot whose two rosters contain `k` total
attacks across both sides (and for which a timeline is produced),
`compute_timeline` returns exactly `k + 1` snapshots: one initial zero
snapshot plus one per attack. -/
theorem timeline_length_eq_attacks_add_one (war : WarData) (tl : List Snapshot)
    (hc : compute_timeline war = .ok tl) :
    tl.length = (allRawAttacks war).length + 1 := by
  obtain ⟨l, he, htl⟩ := compute_timeline_elim war tl hc
  obtain ⟨ca, oa, h1, h2, hsort⟩ := extract_attacks_elim war l he
  have hlen : l.length = (allRawAttacks war).length := by
    rw [hsort, (sortByOrder_perm (ca ++ oa)).length_eq]
    simp [allRawAttacks, extractList_length .clan _ ca h1,
      extractList_length .opponent _ oa h2]
  rw [htl, timelineOfAttacks]
  simp [snapList_length, hlen]

/-- C5: `extract_attacks` fails with an error exactly when some raw
attack record lacks one of the five mandatory keys; an absent
`duration` is defaulted to 0, not an error; and an extraction error
propagates so that `compute_timeline` produces no partial timeline. -/
theorem extract_attacks_failure_iff (war : WarData) :
    ((∃ e, extract_attacks war = .error e) ↔
      ∃ ra ∈ allRawAttacks war, ¬rawComplete ra) ∧
      (∀ side ra a, extractRawAttack side ra = .ok a →
        a.duration = ra.duration.getD 0) ∧
      ∀ e, extract_attacks war = .error e → compute_timeline war = .error e := by
  refine ⟨⟨?_, ?_⟩, ?_, ?_⟩
  · rintro ⟨e, he⟩
    by_contra hnone
    push_neg at hnone
    obtain ⟨l, hl⟩ := (extract_attacks_ok_iff war).mpr hnone
    rw [he] at hl
    exact absurd hl (by simp)
  · rintro ⟨ra, hra, hnc⟩
    cases hext : extract_attacks war with
    | error e => exact ⟨e, rfl⟩
    | ok l => exact absurd ((extract_attacks_ok_iff war).mp ⟨l, hext⟩ ra hra) hnc
  · intro side ra a h
    exact (extractRawAttack_fields side ra a h).2.2.2.2.2.1
  · intro e h
    exact compute_timeline_error_extract war e h

/-- C8: the first snapshot of every produced timeline has order 0, all
totals zero, `last_attack` null, and one all-zero MemberStat per roster
member on each side; with zero attacks it is the whole timeline. -/
theorem initial_snapshot_spec (war : WarData) (tl : List Snapshot)
    (hc : compute_timeline war = .ok tl)
    (hcn : (war.clan.members.map RawMember.tag).Nodup)
    (hon : (war.opponent.members.map RawMember.tag).Nodup) :
    ∃ s0, tl.head? = some s0 ∧ s0.order = 0 ∧ s0.clan_stars = 0 ∧
      s0.clan_destruction = 0 ∧ s0.clan_attacks_used = 0 ∧ s0.opponent_stars = 0 ∧
      s0.opponent_destruction = 0 ∧ s0.opponent_attacks_used = 0 ∧
      s0.last_attack = none ∧
      s0.clan_members = war.clan.members.map (fun m => zeroStat m.tag) ∧
      s0.opponent_members = war.opponent.members.map (fun m => zeroStat m.tag) ∧
      (allRawAttacks war = [] → tl = [s0]) := by
  obtain ⟨l, he, htl⟩ := compute_timeline_elim war tl hc
  refine ⟨initialSnapshot war, ?_, rfl, rfl, rfl, rfl, rfl, rfl, rfl, rfl, ?_, ?_, ?_⟩
  · rw [htl]; rfl
  · simp [initialSnapshot, initialize_eq_map _ hcn]
  · simp [initialSnapshot, initialize_eq_map _ hon]
  · intro hempty
    obtain ⟨ca, oa, h1, h2, hsort⟩ := extract_attacks_elim war l he
    have hboth : rosterRawAttacks war.clan = [] ∧ rosterRawAttacks war.opponent = [] := by
      have := congrArg List.length hempty
      simpa [allRawAttacks] using this
    obtain ⟨hra1, hra2⟩ := hboth
    rw [hra1] at h1
    rw [hra2] at h2
    have hca : ca = [] := by simpa [extractList] using h1.symm
    have hoa : oa = [] := by simpa [extractList] using h2.symm
    have hl : l = [] := by
      rw [hsort, hca, hoa]
      rfl
    rw [htl, hl, timelineOfAttacks, snapList]

/-- C9: snapshots already emitted are immune to later folding — the
first `N + 1` snapshots of the full timeline are exactly the timeline
computed from only the first `N` attacks of the merged list. -/
theorem timeline_take_is_timeline_of_take (war : WarData) (l : List Attack)
    (tl : List Snapshot) (he : extract_attacks war = .ok l)
    (hc : compute_timeline war = .ok tl) (N : Nat) (hN : N ≤ l.length) :
    tl.take (N + 1) = timelineOfAttacks war (l.take N) := by
  have htl := compute_timeline_ok_unique war l tl he hc
  rw [htl, timelineOfAttacks, timelineOfAttacks, List.take_succ_cons,
    snapList_take war.teamSize (initState war) l N hN]

/-- C10: with `teamSize = 0`, an empty combined attack list still
yields the single initial snapshot, while any attack makes
`compute_timeline` fail with the division-by-zero error raised inside
the per-attack fold. -/
theorem teamSize_zero_division (war : WarData) (h0 : war.teamSize = 0) :
    (extract_attacks war = .ok [] →
      compute_timeline war = .ok [initialSnapshot war]) ∧
      ∀ a rest, extract_attacks war = .ok (a :: rest) →
        compute_timeline war = .error .zeroDivisionError := by
  constructor
  · intro he
    simp [compute_timeline, he, foldAttacks]
  · intro a rest he
    simp [compute_timeline, he,
      foldAttacks_zero_cons war.teamSize (by simp [h0]) (initState war) a rest]

/-- Closed form of both destruction-percentage fields of every snapshot:
the side's cumulative raw destruction sum over the attacks folded so
far, divided by `team_size * 100`, times 100. -/
theorem timeline_destruction_eq (war : WarData) (l : List Attack)
    (tl : List Snapshot) (he : extract_attacks war = .ok l)
    (hc : compute_timeline war = .ok tl) :
    ∀ i, (h : i < tl.length) →
      (tl.get ⟨i, h⟩).clan_destruction =
        sumDest .clan (l.take i) / ((war.teamSize * 100 : Int) : ℚ) * 100 ∧
      (tl.get ⟨i, h⟩).opponent_destruction =
        sumDest .opponent (l.take i) / ((war.teamSize * 100 : Int) : ℚ) * 100 := by
  have htl := compute_timeline_ok_unique war l tl he hc
  subst htl
  intro i h
  cases i with
  | zero =>
    constructor <;> simp [timelineOfAttacks, initialSnapshot, sumDest]
  | succ i =>
    have hlen : i < l.length := by
      have h' := h
      simp only [timelineOfAttacks, List.length_cons, snapList_length] at h'
      omega
    have hkey := snapList_get war.teamSize l (initState war) i hlen
    obtain ⟨c1, c2, c3, c4, c5, c6⟩ := stateAfter_totals (initState war) (l.take (i + 1))
    have hget : (timelineOfAttacks war l).get ⟨i + 1, h⟩ =
        (snapList war.teamSize (initState war) l).get
          ⟨i, by rw [snapList_length]; exact hlen⟩ := rfl
    constructor
    · rw [hget, hkey]
      simp only [mkSnapshot]
      rw [c2]
      simp [initState]
    · rw [hget, hkey]
      simp only [mkSnapshot]
      rw [c5]
      simp [initState]

/-- C3: for every war snapshot with nonzero team size, after folding
each attack the snapshot's per-side destruction percentage equals
(that side's cumulative raw destruction-percentage sum) divided by
`team_size * 100`, times 100. -/
theorem snapshot_destruction_formula (war : WarData) (l : List Attack)
    (tl : List Snapshot) (he : extract_attacks war = .ok l)
    (hc : compute_timeline war = .ok tl) (hts : war.teamSize ≠ 0) :
    ∀ i, (h : i < tl.length) →
      (tl.get ⟨i, h⟩).clan_destruction =
        sumDest .clan (l.take i) / ((war.teamSize * 100 : Int) : ℚ) * 100 ∧
      (tl.get ⟨i, h⟩).opponent_destruction =
        sumDest .opponent (l.take i) / ((war.teamSize * 100 : Int) : ℚ) * 100 :=
  timeline_destruction_eq war l tl he hc

theorem snapList_map_order (ts : Int) : ∀ (l : List Attack) (st : FoldSt),
    (snapList ts st l).map Snapshot.order = l.map Attack.order
  | [], _ => rfl
  | a :: rest, st => by
    simp [snapList, mkSnapshot, snapList_map_order ts rest (applyAttack st a)]

/-- C2: `extract_attacks` returns the combined clan-and-opponent list
sorted ascending by `order`, stable (the filter at any order value is
unchanged from the clan-then-opponent enumeration), the snapshots after
the initial one carry exactly these order values, and when the order
values are pairwise distinct both the list and the snapshot orders are
strictly ascending. -/
theorem extract_attacks_order_spec (war : WarData) (l : List Attack)
    (he : extract_attacks war = .ok l) :
    l.Pairwise (fun a b => a.order ≤ b.order) ∧
      (∀ ca oa, extractList .clan (rosterRawAttacks war.clan) = .ok ca →
        extractList .opponent (rosterRawAttacks war.opponent) = .ok oa →
        ∀ v : Int, l.filter (hasOrder v) = (ca ++ oa).filter (hasOrder v)) ∧
      (∀ tl, compute_timeline war = .ok tl →
        (tl.drop 1).map Snapshot.order = l.map Attack.order) ∧
      ((l.map Attack.order).Nodup →
        l.Pairwise (fun a b => a.order < b.order) ∧
          ∀ tl, compute_timeline war = .ok tl →
            ((tl.drop 1).map Snapshot.order).Pairwise (fun x y => x < y)) := by
  obtain ⟨ca0, oa0, h1, h2, hsort⟩ := extract_attacks_elim war l he
  have hle : l.Pairwise (fun a b => a.order ≤ b.order) := by
    rw [hsort]
    exact sortByOrder_sorted (ca0 ++ oa0)
  have horders : ∀ tl, compute_timeline war = .ok tl →
      (tl.drop 1).map Snapshot.order = l.map Attack.order := by
    intro tl htl
    have heq := compute_timeline_ok_unique war l tl he htl
    have hdrop : (timelineOfAttacks war l).drop 1 =
        snapList war.teamSize (initState war) l := rfl
    rw [heq, hdrop, snapList_map_order]
  refine ⟨hle, ?_, horders, ?_⟩
  · intro ca oa hca hoa v
    rw [hca] at h1
    rw [hoa] at h2
    rw [hsort, Except.ok.inj h1, Except.ok.inj h2]
    exact sortByOrder_filter v (ca0 ++ oa0)
  · intro hnd
    have hne : l.Pairwise (fun a b => a.order ≠ b.order) := by
      have hnd' : (l.map Attack.order).Pairwise (fun x y => x ≠ y) := hnd
      exact List.pairwise_map.mp hnd'
    have hlt : l.Pairwise (fun a b => a.order < b.order) :=
      List.Pairwise.imp (fun h => lt_of_le_of_ne h.1 h.2) (hle.and hne)
    refine ⟨hlt, ?_⟩
    intro tl htl
    rw [horders tl htl]
    exact List.pairwise_map.mpr hlt

/-- C4: an attack whose attacker identifier is missing from the
attacking side's accumulator dict, or whose defender identifier is
missing from the defending side's dict, changes no MemberStat for the
missing match, yet still updates the attacking side's running totals,
and the fold step raises no error. -/
theorem unmatched_tags_spec (ts : Int) (st : FoldSt) (a : Attack) :
    (a.attackerClan = .clan →
      a.attackerTag ∉ st.clan_members_stats.map MemberStat.tag →
      (applyAttack st a).clan_members_stats = st.clan_members_stats) ∧
      (a.attackerClan = .clan →
        a.defenderTag ∉ st.opponent_members_stats.map MemberStat.tag →
        (applyAttack st a).opponent_members_stats = st.opponent_members_stats) ∧
      (a.attackerClan = .opponent →
        a.attackerTag ∉ st.opponent_members_stats.map MemberStat.tag →
        (applyAttack st a).opponent_members_stats = st.opponent_members_stats) ∧
      (a.attackerClan = .opponent →
        a.defenderTag ∉ st.clan_members_stats.map MemberStat.tag →
        (applyAttack st a).clan_members_stats = st.clan_members_stats) ∧
      (a.attackerClan = .clan →
        (applyAttack st a).clan_stars = st.clan_stars + a.stars ∧
          (applyAttack st a).sum_clan_destruction =
            st.sum_clan_destruction + a.destructionPercentage ∧
          (applyAttack st a).clan_attacks_used = st.clan_attacks_used + 1) ∧
      (a.attackerClan = .opponent →
        (applyAttack st a).opponent_stars = st.opponent_stars + a.stars ∧
          (applyAttack st a).sum_opponent_destruction =
            st.sum_opponent_destruction + a.destructionPercentage ∧
          (applyAttack st a).opponent_attacks_used = st.opponent_attacks_used + 1) ∧
      (ts * 100 ≠ 0 →
        foldAttacks ts st [a] = .ok [mkSnapshot ts a (applyAttack st a)]) := by
  refine ⟨?_, ?_, ?_, ?_, ?_, ?_, ?_⟩
  · intro hcl hmem
    simp [applyAttack, hcl, incAttacksUsed_not_mem _ _ hmem]
  · intro hcl hmem
    simp [applyAttack, hcl, incDefensesUsed_not_mem _ _ hmem]
  · intro hcl hmem
    simp [applyAttack, hcl, incAttacksUsed_not_mem _ _ hmem]
  · intro hcl hmem
    simp [applyAttack, hcl, incDefensesUsed_not_mem _ _ hmem]
  · intro hcl
    refine ⟨?_, ?_, ?_⟩ <;> simp [applyAttack, hcl]
  · intro hcl
    refine ⟨?_, ?_, ?_⟩ <;> simp [applyAttack, hcl]
  · intro hts
    simp [foldAttacks, hts]

/-! ## Arithmetic facts about the per-side sums -/

theorem sumStars_nonneg (side : Side) :
    ∀ l : List Attack, (∀ a ∈ l, 0 ≤ a.stars) → 0 ≤ sumStars side l
  | [], _ => le_refl 0
  | a :: rest, h => by
    have h1 := h a (by simp)
    have h2 := sumStars_nonneg side rest (fun x hx => h x (by simp [hx]))
    by_cases hcl : a.attackerClan = side
    · simp only [sumStars, if_pos hcl]
      linarith
    · simp only [sumStars, if_neg hcl]
      linarith

theorem sumDest_nonneg (side : Side) :
    ∀ l : List Attack, (∀ a ∈ l, 0 ≤ a.destructionPercentage) → 0 ≤ sumDest side l
  | [], _ => le_refl 0
  | a :: rest, h => by
    have h1 := h a (by simp)
    have h2 := sumDest_nonneg side rest (fun x hx => h x (by simp [hx]))
    by_cases hcl : a.attackerClan = side
    · simp only [sumDest, if_pos hcl]
      linarith
    · simp only [sumDest, if_neg hcl]
      linarith

theorem sumDest_le_count (side : Side) :
    ∀ l : List Attack, (∀ a ∈ l, a.destructionPercentage ≤ 100) →
      sumDest side l ≤ (countSide side l : ℚ) * 100
  | [], _ => by simp [sumDest, countSide]
  | a :: rest, h => by
    have h1 := h a (by simp)
    have h2 := sumDest_le_count side rest (fun x hx => h x (by simp [hx]))
    by_cases hcl : a.attackerClan = side
    · simp only [sumDest, countSide, if_pos hcl]
      push_cast
      linarith
    · simp only [sumDest, countSide, if_neg hcl]
      push_cast
      linarith

theorem sumStars_append (side : Side) : ∀ l1 l2 : List Attack,
    sumStars side (l1 ++ l2) = sumStars side l1 + sumStars side l2
  | [], l2 => by simp [sumStars]
  | a :: rest, l2 => by
    have ih := sumStars_append side rest l2
    simp only [List.cons_append, sumStars, List.append_eq]
    rw [ih]
    ring

theorem sumDest_append (side : Side) : ∀ l1 l2 : List Attack,
    sumDest side (l1 ++ l2) = sumDest side l1 + sumDest side l2
  | [], l2 => by simp [sumDest]
  | a :: rest, l2 => by
    have ih := sumDest_append side rest l2
    simp only [List.cons_append, sumDest, List.append_eq]
    rw [ih]
    ring

theorem countSide_append (side : Side) : ∀ l1 l2 : List Attack,
    countSide side (l1 ++ l2) = countSide side l1 + countSide side l2
  | [], l2 => by simp [countSide]
  | a :: rest, l2 => by
    have ih := countSide_append side rest l2
    simp only [List.cons_append, countSide, List.append_eq]
    rw [ih]
    omega

theorem countSide_take_le (side : Side) (l : List Attack) (n : Nat) :
    countSide side (l.take n) ≤ countSide side l := by
  conv_rhs => rw [← List.take_append_drop n l]
  rw [countSide_append]
  omega

theorem countSide_eq_countP (side : Side) : ∀ l : List Attack,
    countSide side l = l.countP (fun a => decide (a.attackerClan = side))
  | [] => rfl
  | a :: rest => by
    by_cases hcl : a.attackerClan = side <;>
      simp [countSide, List.countP_cons, hcl, countSide_eq_countP side rest] <;>
      omega

theorem countSide_sortByOrder (side : Side) (l : List Attack) :
    countSide side (sortByOrder l) = countSide side l := by
  rw [countSide_eq_countP, countSide_eq_countP]
  exact (sortByOrder_perm l).countP_eq _

theorem countSide_all (side : Side) : ∀ l : List Attack,
    (∀ a ∈ l, a.attackerClan = side) → countSide side l = l.length
  | [], _ => rfl
  | a :: rest, h => by
    simp only [countSide, if_pos (h a (by simp)),
      countSide_all side rest (fun x hx => h x (by simp [hx])), List.length_cons]
    omega

theorem countSide_none (side : Side) : ∀ l : List Attack,
    (∀ a ∈ l, a.attackerClan ≠ side) → countSide side l = 0
  | [], _ => rfl
  | a :: rest, h => by
    simp only [countSide, if_neg (h a (by simp)),
      countSide_none side rest (fun x hx => h x (by simp [hx]))]

theorem extractList_side (side : Side) (ras : List RawAttack) (l : List Attack)
    (h : extractList side ras = .ok l) : ∀ a ∈ l, a.attackerClan = side := by
  intro a ha
  obtain ⟨ra, _, hok⟩ := extractList_mem side ras l h a ha
  exact (extractRawAttack_fields side ra a hok).2.2.2.2.2.2

theorem extract_attacks_mem (war : WarData) (l : List Attack)
    (he : extract_attacks war = .ok l) :
    ∀ a ∈ l, ∃ side ra, ra ∈ allRawAttacks war ∧ extractRawAttack side ra = .ok a := by
  intro a ha
  obtain ⟨ca, oa, h1, h2, hsort⟩ := extract_attacks_elim war l he
  rw [hsort] at ha
  have ha' : a ∈ ca ++ oa := (sortByOrder_perm (ca ++ oa)).mem_iff.mp ha
  rcases List.mem_append.mp ha' with hca | hoa
  · obtain ⟨ra, hram, hok⟩ := extractList_mem .clan _ ca h1 a hca
    exact ⟨.clan, ra, List.mem_append.mpr (Or.inl hram), hok⟩
  · obtain ⟨ra, hram, hok⟩ := extractList_mem .opponent _ oa h2 a hoa
    exact ⟨.opponent, ra, List.mem_append.mpr (Or.inr hram), hok⟩

theorem extract_attacks_countSide (war : WarData) (l : List Attack)
    (he : extract_attacks war = .ok l) :
    countSide .clan l = (rosterRawAttacks war.clan).length ∧
      countSide .opponent l = (rosterRawAttacks war.opponent).length := by
  obtain ⟨ca, oa, h1, h2, hsort⟩ := extract_attacks_elim war l he
  have hcside := extractList_side .clan _ ca h1
  have hoside := extractList_side .opponent _ oa h2
  constructor
  · rw [hsort, countSide_sortByOrder, countSide_append, countSide_all .clan ca hcside,
      countSide_none .clan oa (fun a ha => by simp [hoside a ha]),
      extractList_length .clan _ ca h1]
    omega
  · rw [hsort, countSide_sortByOrder, countSide_append,
      countSide_none .opponent ca (fun a ha => by simp [hcside a ha]),
      countSide_all .opponent oa hoside,
      extractList_length .opponent _ oa h2]
    omega

/-- Closed form of the star and attacks-used fields of every snapshot. -/
theorem timeline_fields (war : WarData) (l : List Attack) (tl : List Snapshot)
    (he : extract_attacks war = .ok l) (hc : compute_timeline war = .ok tl) :
    ∀ i, (h : i < tl.length) →
      (tl.get ⟨i, h⟩).clan_stars = sumStars .clan (l.take i) ∧
        (tl.get ⟨i, h⟩).clan_attacks_used = countSide .clan (l.take i) ∧
        (tl.get ⟨i, h⟩).opponent_stars = sumStars .opponent (l.take i) ∧
        (tl.get ⟨i, h⟩).opponent_attacks_used = countSide .opponent (l.take i) := by
  have htl := compute_timeline_ok_unique war l tl he hc
  subst htl
  intro i h
  cases i with
  | zero =>
    refine ⟨?_, ?_, ?_, ?_⟩ <;>
      simp [timelineOfAttacks, initialSnapshot, sumStars, countSide]
  | succ i =>
    have hlen : i < l.length := by
      have h' := h
      simp only [timelineOfAttacks, List.length_cons, snapList_length] at h'
      omega
    have hkey := snapList_get war.teamSize l (initState war) i hlen
    obtain ⟨c1, c2, c3, c4, c5, c6⟩ := stateAfter_totals (initState war) (l.take (i + 1))
    have hget : (timelineOfAttacks war l).get ⟨i + 1, h⟩ =
        (snapList war.teamSize (initState war) l).get
          ⟨i, by rw [snapList_length]; exact hlen⟩ := rfl
    refine ⟨?_, ?_, ?_, ?_⟩ <;> rw [hget, hkey] <;> simp only [mkSnapshot]
    · rw [c1]
      simp [initState]
    · rw [c3]
      simp [initState]
    · rw [c4]
      simp [initState]
    · rw [c6]
      simp [initState]

/-- C6: when all attacks have non-negative stars and destruction and
the team size is positive, each side's stars, attacks-used count and
destruction percentage are non-decreasing between adjacent snapshots. -/
theorem timeline_monotone (war : WarData) (l : List Attack) (tl : List Snapshot)
    (he : extract_attacks war = .ok l) (hc : compute_timeline war = .ok tl)
    (hstars : ∀ ra ∈ allRawAttacks war, ∀ s, ra.stars = some s → 0 ≤ s)
    (hdest : ∀ ra ∈ allRawAttacks war, ∀ d, ra.destructionPercentage = some d → 0 ≤ d)
    (hts : 0 < war.teamSize) :
    ∀ i, (h : i + 1 < tl.length) →
      (tl.get ⟨i, Nat.lt_of_succ_lt h⟩).clan_stars ≤ (tl.get ⟨i + 1, h⟩).clan_stars ∧
        (tl.get ⟨i, Nat.lt_of_succ_lt h⟩).clan_attacks_used ≤
          (tl.get ⟨i + 1, h⟩).clan_attacks_used ∧
        (tl.get ⟨i, Nat.lt_of_succ_lt h⟩).clan_destruction ≤
          (tl.get ⟨i + 1, h⟩).clan_destruction ∧
        (tl.get ⟨i, Nat.lt_of_succ_lt h⟩).opponent_stars ≤
          (tl.get ⟨i + 1, h⟩).opponent_stars ∧
        (tl.get ⟨i, Nat.lt_of_succ_lt h⟩).opponent_attacks_used ≤
          (tl.get ⟨i + 1, h⟩).opponent_attacks_used ∧
        (tl.get ⟨i, Nat.lt_of_succ_lt h⟩).opponent_destruction ≤
          (tl.get ⟨i + 1, h⟩).opponent_destruction := by
  have hatt : ∀ a ∈ l, 0 ≤ a.stars ∧ 0 ≤ a.destructionPercentage := by
    intro a ha
    obtain ⟨side, ra, hmem, hok⟩ := extract_attacks_mem war l he a ha
    obtain ⟨f1, f2, f3, f4, f5, f6, f7⟩ := extractRawAttack_fields side ra a hok
    exact ⟨hstars ra hmem a.stars f3, hdest ra hmem a.destructionPercentage f4⟩
  have htl := compute_timeline_ok_unique war l tl he hc
  subst htl
  intro i h
  have hlen : i < l.length := by
    have h' := h
    simp only [timelineOfAttacks, List.length_cons, snapList_length] at h'
    omega
  have hdecomp : l.take i ++ [l.get ⟨i, hlen⟩] = l.take (i + 1) := by
    simpa [List.concat_eq_append, List.get_eq_getElem] using List.take_concat_get l i hlen
  have ha := hatt (l.get ⟨i, hlen⟩) (List.get_mem l i hlen)
  have hsS : ∀ side, sumStars side (l.take i) ≤ sumStars side (l.take (i + 1)) := by
    intro side
    rw [← hdecomp, sumStars_append]
    have hone : 0 ≤ sumStars side [l.get ⟨i, hlen⟩] := by
      by_cases hcl : (l.get ⟨i, hlen⟩).attackerClan = side
      · simp only [sumStars, if_pos hcl]
        linarith [ha.1]
      · simp only [sumStars, if_neg hcl]
        linarith
    linarith
  have hsD : ∀ side, sumDest side (l.take i) ≤ sumDest side (l.take (i + 1)) := by
    intro side
    rw [← hdecomp, sumDest_append]
    have hone : 0 ≤ sumDest side [l.get ⟨i, hlen⟩] := by
      by_cases hcl : (l.get ⟨i, hlen⟩).attackerClan = side
      · simp only [sumDest, if_pos hcl]
        linarith [ha.2]
      · simp only [sumDest, if_neg hcl]
        linarith
    linarith
  have hsC : ∀ side, countSide side (l.take i) ≤ countSide side (l.take (i + 1)) := by
    intro side
    rw [← hdecomp, countSide_append]
    omega
  obtain ⟨a1, a2, a3, a4⟩ :=
    timeline_fields war l _ he hc i (Nat.lt_of_succ_lt h)
  obtain ⟨b1, b2, b3, b4⟩ := timeline_fields war l _ he hc (i + 1) h
  obtain ⟨d1, d2⟩ := timeline_destruction_eq war l _ he hc i (Nat.lt_of_succ_lt h)
  obtain ⟨e1, e2⟩ := timeline_destruction_eq war l _ he hc (i + 1) h
  have hden : (0:ℚ) < ((war.teamSize * 100 : Int) : ℚ) := by
    have h100 : (0:Int) < war.teamSize * 100 := by omega
    exact_mod_cast h100
  have hdiv : ∀ x y : ℚ, x ≤ y →
      x / ((war.teamSize * 100 : Int) : ℚ) * 100 ≤
        y / ((war.teamSize * 100 : Int) : ℚ) * 100 := by
    intro x y hxy
    exact mul_le_mul_of_nonneg_right ((div_le_div_right hden).mpr hxy) (by norm_num)
  refine ⟨?_, ?_, ?_, ?_, ?_, ?_⟩
  · rw [a1, b1]
    exact hsS .clan
  · rw [a2, b2]
    exact hsC .clan
  · rw [d1, e1]
    exact hdiv _ _ (hsD .clan)
  · rw [a3, b3]
    exact hsS .opponent
  · rw [a4, b4]
    exact hsC .opponent
  · rw [d2, e2]
    exact hdiv _ _ (hsD .opponent)

/-- C7: with a positive team size, every attack's destruction in
[0, 100], and each side's attack count at most the team size, every
snapshot's per-side destruction percentage lies in [0, 100]. -/
theorem destruction_bounded (war : WarData) (l : List Attack) (tl : List Snapshot)
    (he : extract_attacks war = .ok l) (hc : compute_timeline war = .ok tl)
    (hts : 0 < war.teamSize)
    (hdest : ∀ ra ∈ allRawAttacks war, ∀ d, ra.destructionPercentage = some d →
      0 ≤ d ∧ d ≤ 100)
    (hclan : ((rosterRawAttacks war.clan).length : Int) ≤ war.teamSize)
    (hopp : ((rosterRawAttacks war.opponent).length : Int) ≤ war.teamSize) :
    ∀ i, (h : i < tl.length) →
      (0 ≤ (tl.get ⟨i, h⟩).clan_destruction ∧
        (tl.get ⟨i, h⟩).clan_destruction ≤ 100) ∧
        (0 ≤ (tl.get ⟨i, h⟩).opponent_destruction ∧
          (tl.get ⟨i, h⟩).opponent_destruction ≤ 100) := by
  have hatt : ∀ a ∈ l, 0 ≤ a.destructionPercentage ∧ a.destructionPercentage ≤ 100 := by
    intro a ha
    obtain ⟨side, ra, hmem, hok⟩ := extract_attacks_mem war l he a ha
    obtain ⟨f1, f2, f3, f4, f5, f6, f7⟩ := extractRawAttack_fields side ra a hok
    exact hdest ra hmem a.destructionPercentage f4
  obtain ⟨hcnt1, hcnt2⟩ := extract_attacks_countSide war l he
  have hden : (0:ℚ) < ((war.teamSize * 100 : Int) : ℚ) := by
    have h100 : (0:Int) < war.teamSize * 100 := by omega
    exact_mod_cast h100
  intro i h
  obtain ⟨d1, d2⟩ := timeline_destruction_eq war l tl he hc i h
  have key : ∀ side : Side, (countSide side l : Int) ≤ war.teamSize →
      0 ≤ sumDest side (l.take i) / ((war.teamSize * 100 : Int) : ℚ) * 100 ∧
        sumDest side (l.take i) / ((war.teamSize * 100 : Int) : ℚ) * 100 ≤ 100 := by
    intro side hcnt
    have h0 : 0 ≤ sumDest side (l.take i) :=
      sumDest_nonneg side _ (fun a ha => (hatt a (List.take_subset i l ha)).1)
    have h1 : sumDest side (l.take i) ≤ (countSide side (l.take i) : ℚ) * 100 :=
      sumDest_le_count side _ (fun a ha => (hatt a (List.take_subset i l ha)).2)
    have h2 : (countSide side (l.take i) : Int) ≤ war.teamSize :=
      le_trans (by exact_mod_cast countSide_take_le side l i) hcnt
    have h3 : (countSide side (l.take i) : ℚ) * 100 ≤ ((war.teamSize * 100 : Int) : ℚ) := by
      push_cast
      have h4 : ((countSide side (l.take i) : Int) : ℚ) ≤ ((war.teamSize : Int) : ℚ) := by
        exact_mod_cast h2
      push_cast at h4
      linarith
    refine ⟨mul_nonneg (div_nonneg h0 (le_of_lt hden)) (by norm_num), ?_⟩
    calc sumDest side (l.take i) / ((war.teamSize * 100 : Int) : ℚ) * 100
        ≤ 1 * 100 :=
          mul_le_mul_of_nonneg_right ((div_le_one hden).mpr (le_trans h1 h3)) (by norm_num)
      _ = 100 := one_mul 100
  constructor
  · rw [d1]
    refine key .clan ?_
    rw [hcnt1]
    exact hclan
  · rw [d2]
    refine key .opponent ?_
    rw [hcnt2]
    exact hopp

/-! ## Concrete wars for exercising the theorems -/

/-- The attack list a war extracts (empty when extraction fails). -/
def exAttacksOf (war : WarData) : List Attack :=
  (extract_attacks war).toOption.getD []

/-- The timeline a war produces (empty when the computation fails). -/
def exTimelineOf (war : WarData) : List Snapshot :=
  (compute_timeline war).toOption.getD []

/-- One clan attack: 3 stars, 100%, sequence 1. -/
def wAttack1 : RawAttack :=
  { attackerTag := some "#A1", defenderTag := some "#B1", stars := some 3,
    destructionPercentage := some 100, order := some 1, duration := some 45 }

/-- Scenario A: two single-member rosters, team size 1, one clan attack. -/
def wWar1 : WarData :=
  { clan := { tag := "#C", members := [{ tag := "#A1", attacks := some [wAttack1] }] }
    opponent := { tag := "#O", members := [{ tag := "#B1", attacks := none }] }
    teamSize := 1
    attacksPerMember := some 1 }

def wAttack2c : RawAttack :=
  { attackerTag := some "#A1", defenderTag := some "#B1", stars := some 2,
    destructionPercentage := some 55, order := some 2, duration := none }

def wAttack2o : RawAttack :=
  { attackerTag := some "#B1", defenderTag := some "#A1", stars := some 1,
    destructionPercentage := some 40, order := some 1, duration := some 30 }

/-- One attack per side, the clan one enumerated first but sequenced second. -/
def wWar2 : WarData :=
  { clan := { tag := "#C", members := [{ tag := "#A1", attacks := some [wAttack2c] }] }
    opponent := { tag := "#O", members := [{ tag := "#B1", attacks := some [wAttack2o] }] }
    teamSize := 1
    attacksPerMember := some 1 }

def wAttackB1 : RawAttack :=
  { attackerTag := some "#A1", defenderTag := some "#B1", stars := some 1,
    destructionPercentage := some 50, order := some 1, duration := none }

def wAttackB2 : RawAttack :=
  { attackerTag := some "#A1", defenderTag := some "#B2", stars := some 2,
    destructionPercentage := some 50, order := some 2, duration := none }

/-- Scenario B: team size 2, one member with two 50% attacks. -/
def wWarB : WarData :=
  { clan := { tag := "#C", members := [{ tag := "#A1", attacks := some [wAttackB1, wAttackB2] },
      { tag := "#A2", attacks := none }] }
    opponent := { tag := "#O", members := [{ tag := "#B1", attacks := none },
      { tag := "#B2", attacks := some [] }] }
    teamSize := 2
    attacksPerMember := some 2 }

/-- A raw attack missing the mandatory `stars` key. -/
def wAttackBad : RawAttack :=
  { attackerTag := some "#A1", defenderTag := some "#B1", stars := none,
    destructionPercentage := some 10, order := some 1, duration := none }

def wBad : WarData :=
  { clan := { tag := "#C", members := [{ tag := "#A1", attacks := some [wAttackBad] }] }
    opponent := { tag := "#O", members := [] }
    teamSize := 1
    attacksPerMember := none }

/-- Scenario C: zero attacks on both rosters, team size 5. -/
def wWar0 : WarData :=
  { clan := { tag := "#C", members := [{ tag := "#A1", attacks := none }] }
    opponent := { tag := "#O", members := [{ tag := "#B1", attacks := some [] }] }
    teamSize := 5
    attacksPerMember := none }

/-- Team size 0, no attacks. -/
def wZero0 : WarData :=
  { clan := { tag := "#C", members := [] }
    opponent := { tag := "#O", members := [] }
    teamSize := 0
    attacksPerMember := none }

def wZAttack : RawAttack :=
  { attackerTag := some "#A1", defenderTag := some "#B1", stars := some 1,
    destructionPercentage := some 10, order := some 1, duration := none }

/-- Team size 0, one attack. -/
def wZero1 : WarData :=
  { clan := { tag := "#C", members := [{ tag := "#A1", attacks := some [wZAttack] }] }
    opponent := { tag := "#O", members := [] }
    teamSize := 0
    attacksPerMember := none }

/-- The extracted form of `wZAttack`. -/
def wZAttackEx : Attack :=
  { attackerClan := .clan, attackerTag := "#A1", defenderTag := "#B1", stars := 1,
    destructionPercentage := 10, order := 1, duration := 0 }

theorem timeline_length_witness :
    compute_timeline wWar1 = .ok (exTimelineOf wWar1) ∧
      (exTimelineOf wWar1).length = (allRawAttacks wWar1).length + 1 := by
  have h : compute_timeline wWar1 = .ok (exTimelineOf wWar1) := by rfl
  exact ⟨h, timeline_length_eq_attacks_add_one wWar1 (exTimelineOf wWar1) h⟩

theorem timeline_take_witness :
    (exTimelineOf wWar2).take 2 = timelineOfAttacks wWar2 ((exAttacksOf wWar2).take 1) := by
  have he : extract_attacks wWar2 = .ok (exAttacksOf wWar2) := by rfl
  have hc : compute_timeline wWar2 = .ok (exTimelineOf wWar2) := by rfl
  exact timeline_take_is_timeline_of_take wWar2 (exAttacksOf wWar2) (exTimelineOf wWar2)
    he hc 1 (by decide)

theorem teamSize_zero_witness :
    compute_timeline wZero0 = .ok [initialSnapshot wZero0] ∧
      compute_timeline wZero1 = .error .zeroDivisionError := by
  obtain ⟨hempty, _⟩ := teamSize_zero_division wZero0 rfl
  obtain ⟨_, hcons⟩ := teamSize_zero_division wZero1 rfl
  refine ⟨hempty (by rfl), hcons wZAttackEx [] (by rfl)⟩

theorem order_spec_witness :
    extract_attacks wWar2 = .ok (exAttacksOf wWar2) ∧
      (exAttacksOf wWar2).Pairwise (fun a b => a.order ≤ b.order) ∧
      ((exAttacksOf wWar2).map Attack.order).Nodup ∧
      (exAttacksOf wWar2).Pairwise (fun a b => a.order < b.order) := by
  have he : extract_attacks wWar2 = .ok (exAttacksOf wWar2) := by rfl
  obtain ⟨h1, h2, h3, h4⟩ := extract_attacks_order_spec wWar2 (exAttacksOf wWar2) he
  have hnd : ((exAttacksOf wWar2).map Attack.order).Nodup := by decide
  exact ⟨he, h1, hnd, (h4 hnd).1⟩

/-- A fold state whose accumulator dicts do not know the tags of
`wUnmatchedAttack`. -/
def wUnmatchedState : FoldSt :=
  { clan_stars := 1
    sum_clan_destruction := 30
    clan_attacks_used := 1
    opponent_stars := 0
    sum_opponent_destruction := 0
    opponent_attacks_used := 0
    clan_members_stats := [{ tag := "#X", attacks_used := 0, defenses_used := 0 }]
    opponent_members_stats := [] }

def wUnmatchedAttack : Attack :=
  { attackerClan := .clan, attackerTag := "#A9", defenderTag := "#B9", stars := 2,
    destructionPercentage := 70, order := 3, duration := 10 }

theorem unmatched_tags_witness :
    (applyAttack wUnmatchedState wUnmatchedAttack).clan_members_stats =
        wUnmatchedState.clan_members_stats ∧
      (applyAttack wUnmatchedState wUnmatchedAttack).opponent_members_stats =
        wUnmatchedState.opponent_members_stats ∧
      (applyAttack wUnmatchedState wUnmatchedAttack).clan_stars =
        wUnmatchedState.clan_stars + wUnmatchedAttack.stars ∧
      (applyAttack wUnmatchedState wUnmatchedAttack).clan_attacks_used =
        wUnmatchedState.clan_attacks_used + 1 ∧
      foldAttacks 1 wUnmatchedState [wUnmatchedAttack] =
        .ok [mkSnapshot 1 wUnmatchedAttack (applyAttack wUnmatchedState wUnmatchedAttack)] := by
  obtain ⟨h1, h2, h3, h4, h5, h6, h7⟩ := unmatched_tags_spec 1 wUnmatchedState wUnmatchedAttack
  exact ⟨h1 rfl (by decide), h2 rfl (by decide), (h5 rfl).1, (h5 rfl).2.2, h7 (by decide)⟩

theorem failure_iff_witness :
    (∃ e, extract_attacks wBad = .error e) ∧
      compute_timeline wBad = .error (.keyError "stars") := by
  obtain ⟨hiff, hdur, herr⟩ := extract_attacks_failure_iff wBad
  have hex : ∃ ra ∈ allRawAttacks wBad, ¬rawComplete ra := by decide
  refine ⟨hiff.mpr hex, herr (.keyError "stars") (by rfl)⟩

theorem initial_snapshot_witness :
    (∃ s0, (exTimelineOf wWar1).head? = some s0 ∧ s0.order = 0 ∧ s0.clan_stars = 0 ∧
      s0.clan_destruction = 0 ∧ s0.clan_attacks_used = 0 ∧ s0.opponent_stars = 0 ∧
      s0.opponent_destruction = 0 ∧ s0.opponent_attacks_used = 0 ∧
      s0.last_attack = none ∧
      s0.clan_members = wWar1.clan.members.map (fun m => zeroStat m.tag) ∧
      s0.opponent_members = wWar1.opponent.members.map (fun m => zeroStat m.tag)) ∧
      (∃ s0, (exTimelineOf wWar0).head? = some s0 ∧ exTimelineOf wWar0 = [s0]) := by
  have hc1 : compute_timeline wWar1 = .ok (exTimelineOf wWar1) := by rfl
  have hc0 : compute_timeline wWar0 = .ok (exTimelineOf wWar0) := by rfl
  obtain ⟨s0, hh, h1, h2, h3, h4, h5, h6, h7, h8, h9, h10, _⟩ :=
    initial_snapshot_spec wWar1 (exTimelineOf wWar1) hc1 (by decide) (by decide)
  obtain ⟨t0, gh, _, _, _, _, _, _, _, _, _, _, gimp⟩ :=
    initial_snapshot_spec wWar0 (exTimelineOf wWar0) hc0 (by decide) (by decide)
  exact ⟨⟨s0, hh, h1, h2, h3, h4, h5, h6, h7, h8, h9, h10⟩,
    ⟨t0, gh, gimp (by decide)⟩⟩

/-- The extracted forms of the Scenario-B raw attacks. -/
def wAttackB1Ex : Attack :=
  { attackerClan := .clan, attackerTag := "#A1", defenderTag := "#B1", stars := 1,
    destructionPercentage := 50, order := 1, duration := 0 }

def wAttackB2Ex : Attack :=
  { attackerClan := .clan, attackerTag := "#A1", defenderTag := "#B2", stars := 2,
    destructionPercentage := 50, order := 2, duration := 0 }

theorem destruction_formula_witness :
    compute_timeline wWarB = .ok (exTimelineOf wWarB) ∧
      ((exTimelineOf wWarB).get ⟨2, by decide⟩).clan_destruction =
        sumDest .clan ((exAttacksOf wWarB).take 2) /
          ((wWarB.teamSize * 100 : Int) : ℚ) * 100 ∧
      ((exTimelineOf wWarB).get ⟨2, by decide⟩).clan_destruction = 50 := by
  have he : extract_attacks wWarB = .ok (exAttacksOf wWarB) := by rfl
  have hc : compute_timeline wWarB = .ok (exTimelineOf wWarB) := by rfl
  have hlen : 2 < (exTimelineOf wWarB).length := by decide
  obtain ⟨hform, _⟩ := snapshot_destruction_formula wWarB (exAttacksOf wWarB)
    (exTimelineOf wWarB) he hc (by decide) 2 hlen
  have hA : exAttacksOf wWarB = [wAttackB1Ex, wAttackB2Ex] := by rfl
  have h50 : sumDest .clan ((exAttacksOf wWarB).take 2) /
      ((wWarB.teamSize * 100 : Int) : ℚ) * 100 = 50 := by
    rw [hA]
    norm_num [sumDest, wAttackB1Ex, wAttackB2Ex, wWarB]
  exact ⟨hc, hform, hform.trans h50⟩

theorem monotone_witness :
    ((exTimelineOf wWar2).get ⟨0, by decide⟩).clan_stars ≤
        ((exTimelineOf wWar2).get ⟨1, by decide⟩).clan_stars ∧
      ((exTimelineOf wWar2).get ⟨0, by decide⟩).clan_destruction ≤
        ((exTimelineOf wWar2).get ⟨1, by decide⟩).clan_destruction ∧
      ((exTimelineOf wWar2).get ⟨0, by decide⟩).opponent_attacks_used ≤
        ((exTimelineOf wWar2).get ⟨1, by decide⟩).opponent_attacks_used := by
  have he : extract_attacks wWar2 = .ok (exAttacksOf wWar2) := by rfl
  have hc : compute_timeline wWar2 = .ok (exTimelineOf wWar2) := by rfl
  have hcases : ∀ ra ∈ allRawAttacks wWar2, ra = wAttack2c ∨ ra = wAttack2o := by
    intro ra hra
    simpa [allRawAttacks, rosterRawAttacks, memberRawAttacks, wWar2] using hra
  have hstars : ∀ ra ∈ allRawAttacks wWar2, ∀ s, ra.stars = some s → 0 ≤ s := by
    intro ra hra s hs
    rcases hcases ra hra with h | h <;> subst h <;>
      simp only [wAttack2c, wAttack2o, Option.some.injEq] at hs <;> omega
  have hdest : ∀ ra ∈ allRawAttacks wWar2, ∀ d,
      ra.destructionPercentage = some d → 0 ≤ d := by
    intro ra hra d hd
    rcases hcases ra hra with h | h <;> subst h <;>
      simp only [wAttack2c, wAttack2o, Option.some.injEq] at hd <;>
      rw [← hd] <;> norm_num
  have hmono := timeline_monotone wWar2 (exAttacksOf wWar2) (exTimelineOf wWar2)
    he hc hstars hdest (by decide) 0 (by decide)
  exact ⟨hmono.1, hmono.2.2.1, hmono.2.2.2.2.1⟩

theorem bounded_witness :
    (0 ≤ ((exTimelineOf wWar2).get ⟨1, by decide⟩).clan_destruction ∧
      ((exTimelineOf wWar2).get ⟨1, by decide⟩).clan_destruction ≤ 100) ∧
      (0 ≤ ((exTimelineOf wWar2).get ⟨1, by decide⟩).opponent_destruction ∧
        ((exTimelineOf wWar2).get ⟨1, by decide⟩).opponent_destruction ≤ 100) := by
  have he : extract_attacks wWar2 = .ok (exAttacksOf wWar2) := by rfl
  have hc : compute_timeline wWar2 = .ok (exTimelineOf wWar2) := by rfl
  have hcases : ∀ ra ∈ allRawAttacks wWar2, ra = wAttack2c ∨ ra = wAttack2o := by
    intro ra hra
    simpa [allRawAttacks, rosterRawAttacks, memberRawAttacks, wWar2] using hra
  have hdest : ∀ ra ∈ allRawAttacks wWar2, ∀ d,
      ra.destructionPercentage = some d → 0 ≤ d ∧ d ≤ 100 := by
    intro ra hra d hd
    rcases hcases ra hra with h | h <;> subst h <;>
      simp only [wAttack2c, wAttack2o, Option.some.injEq] at hd <;>
      rw [← hd] <;> constructor <;> norm_num
  exact destruction_bounded wWar2 (exAttacksOf wWar2) (exTimelineOf wWar2) he hc
    (by decide) hdest (by decide) (by decide) 1 (by decide)
